import Mathlib

/-!
Shallow embedding of `src/linked_hashmap.hpp` (namespace `sjtu`), an
insertion-ordered hash map: a chaining hash table over buckets combined
with a doubly linked order list threading all live entries.

Modelling conventions:
* `Key = T = Nat`; the hash functor is an explicit parameter `h : Nat → Nat`
  (`std::hash`), key equality is `=` on `Nat` (`std::equal_to`).
* A heap node `Node { data, next, prev, list_next, list_prev }` is identified
  by its key (the container keeps keys unique).  The bucket chains are lists
  of `(key, value)` pairs, chain head first, so the `next`/`prev` pointers of
  the source become list structure.  The insertion-order list is the list
  `order` of keys, head first; `list_next`/`list_prev`/`head`/`tail` become
  list structure on `order`.
* An iterator is its `current` node (a key, or `none` for the null
  past-the-end pointer) plus the `container` back pointer, modelled as the
  identity tag `self` carried by each container value.
* Exceptions become `Except MapError`.
-/

namespace LinkedHashmap

/-- One stored element: `pair<const Key, T>` with `Key = T = Nat`. -/
abbrev Entry := Nat × Nat

/-- Exceptions thrown by the container (`exceptions.hpp` names). -/
inductive MapError where
  | index_out_of_bound
  | invalid_iterator
deriving DecidableEq, Repr

/-- State of a `linked_hashmap`: bucket array of chains, capacity and size
counters, the insertion-order list (as the list of keys, head first), and
the container's identity (its address, used by iterator validation). -/
structure LHM where
  buckets : List (List Entry)
  bucket_count : Nat
  element_count : Nat
  order : List Nat
  self : Nat
deriving DecidableEq, Repr

/-- Mutable iterator: the `current` node (`none` = null = past-the-end)
and the owning container's identity. -/
structure Iter where
  current : Option Nat
  container : Nat
deriving DecidableEq, Repr

/-- Read-only iterator (`const_iterator`), same representation. -/
structure CIter where
  current : Option Nat
  container : Nat
deriving DecidableEq, Repr

/-- Conversion `const_iterator(const iterator&)`. -/
def CIter.ofIter (it : Iter) : CIter := ⟨it.current, it.container⟩

def INITIAL_CAPACITY : Nat := 16

/-- Default constructor: `bucket_count = 16`, empty buckets, empty order
list, size 0.  `t` is the fresh container identity (its address). -/
def emptyMap (t : Nat) : LHM :=
  { buckets := List.replicate INITIAL_CAPACITY []
    bucket_count := INITIAL_CAPACITY
    element_count := 0
    order := []
    self := t }

/-- Helper `hash_index`: `hasher(key) % bucket_count`. -/
def hash_index (h : Nat → Nat) (m : LHM) (k : Nat) : Nat :=
  h k % m.bucket_count

/-- Chain walk used by `find`, `insert` and the bucket lookup: walk the
chain from its head, returning the first node whose key equals `k`. -/
def chainFind (k : Nat) : List Entry → Option Entry
  | [] => none
  | e :: rest => if e.1 = k then some e else chainFind k rest

/-- One step of the `rehash` loop body: relink one node at the head of its
new chain `new_buckets[hasher(key) % new_capacity]`. -/
def rehashStep (h : Nat → Nat) (cap : Nat) (bs : List (List Entry))
    (e : Entry) : List (List Entry) :=
  bs.set (h e.1 % cap) (e :: bs.getD (h e.1 % cap) [])

/-- The private `rehash(new_capacity)`: allocate `new_capacity` empty
chains, then walk the old buckets in index order and each chain head to
tail, relinking every node at the head of its new chain.  The order list
(`order`) is not touched. -/
def rehash (h : Nat → Nat) (m : LHM) (new_cap : Nat) : LHM :=
  { m with
    buckets := m.buckets.foldl
      (fun acc chain => chain.foldl (rehashStep h new_cap) acc)
      (List.replicate new_cap [])
    bucket_count := new_cap }

/-- The private `ensure_capacity()`: if `element_count ≥ bucket_count *
0.75` (exact in `double` arithmetic, hence `4 * size ≥ 3 * capacity`),
rehash to twice the capacity. -/
def ensure_capacity (h : Nat → Nat) (m : LHM) : LHM :=
  if 4 * m.element_count ≥ 3 * m.bucket_count then
    rehash h m (m.bucket_count * 2)
  else m

/-- Bucket lookup shared by `find`/`at`/`operator[]`/`count` and by the
duplicate-check walk of `insert`: the node with key `k` in the chain at
`hash_index(k)`, if any. -/
def findNode (h : Nat → Nat) (m : LHM) (k : Nat) : Option Entry :=
  chainFind k (m.buckets.getD (hash_index h m k) [])

/-- The part of `insert(value)` after the `ensure_capacity()` call: walk
the chain at `hash_index(value.first)`; if a node with an equal key
exists, return an iterator to it paired with `false` and no mutation;
otherwise link a new node at the chain head, append it at the order-list
tail, bump the size and return its iterator paired with `true`. -/
def insertPost (h : Nat → Nat) (m1 : LHM) (v : Entry) : (Iter × Bool) × LHM :=
  match findNode h m1 v.1 with
  | some e => ((⟨some e.1, m1.self⟩, false), m1)
  | none =>
      ((⟨some v.1, m1.self⟩, true),
        { m1 with
          buckets := m1.buckets.set (hash_index h m1 v.1)
            (v :: m1.buckets.getD (hash_index h m1 v.1) [])
          order := m1.order ++ [v.1]
          element_count := m1.element_count + 1 })

/-- Public `insert(value)`: `ensure_capacity()` runs first, before the
duplicate-check walk; then the chain walk and (for a fresh key) the
linking.  Returns the `pair<iterator, bool>` together with the post-call
container state. -/
def insert (h : Nat → Nat) (m : LHM) (v : Entry) : (Iter × Bool) × LHM :=
  insertPost h (ensure_capacity h m) v

/-- Public `find(key)`: iterator to the matching node, past-the-end when
absent. -/
def find (h : Nat → Nat) (m : LHM) (k : Nat) : Iter :=
  match findNode h m k with
  | some e => ⟨some e.1, m.self⟩
  | none => ⟨none, m.self⟩

/-- Public `at(key)` (both overloads have the same behaviour): `find`,
throw `index_out_of_bound` on past-the-end, otherwise return
`it->second`. -/
def atKey (h : Nat → Nat) (m : LHM) (k : Nat) : Except MapError Nat :=
  match findNode h m k with
  | none => .error .index_out_of_bound
  | some e => .ok e.2

/-- Public `operator[] const`: `return at(key);`. -/
def indexAccessConst (h : Nat → Nat) (m : LHM) (k : Nat) :
    Except MapError Nat :=
  atKey h m k

/-- Public mutable `operator[]`: `find`; if found return `it->second`
without mutation, otherwise `insert(value_type(key, T()))` (default value
`T()` is `0`) and return `result.first->second`.  Returns the reference's
value together with the post-call container state. -/
def indexAccess (h : Nat → Nat) (m : LHM) (k : Nat) : Nat × LHM :=
  match findNode h m k with
  | some e => (e.2, m)
  | none =>
      let r := insert h m (k, 0)
      ((((r.1.1.current.bind (findNode h r.2)).map Prod.snd).getD 0), r.2)

/-- Public `erase(pos)`: throw `invalid_iterator` when `pos == end()`
(null `current`) or `pos.container != this`; otherwise unlink the node
from its bucket chain (at `hash_index(node->data.first)`) and from the
order list, delete it and decrement the size. -/
def erase (h : Nat → Nat) (m : LHM) (pos : Iter) : Except MapError LHM :=
  match pos.current with
  | none => .error .invalid_iterator
  | some k =>
      if pos.container ≠ m.self then .error .invalid_iterator
      else
        let idx := hash_index h m k
        .ok { m with
          buckets := m.buckets.set idx
            ((m.buckets.getD idx []).eraseP (fun e => e.1 == k))
          order := m.order.erase k
          element_count := m.element_count - 1 }

/-- Public `count(key)`: 1 when found, else 0. -/
def count (h : Nat → Nat) (m : LHM) (k : Nat) : Nat :=
  if (find h m k).current ≠ none then 1 else 0

/-- Public `clear()`: delete every node walking the order list, reset
head/tail/size, null every bucket. -/
def clear (m : LHM) : LHM :=
  { m with
    buckets := List.replicate m.bucket_count []
    order := []
    element_count := 0 }

/-- Public `begin()`: iterator at the order-list head. -/
def begin (m : LHM) : Iter := ⟨m.order.head?, m.self⟩

/-- Public `end()`: the past-the-end iterator (null `current`). -/
def endIter (m : LHM) : Iter := ⟨none, m.self⟩

/-- Public `cbegin()`. -/
def cbegin (m : LHM) : CIter := ⟨m.order.head?, m.self⟩

/-- Public `cend()`. -/
def cendIter (m : LHM) : CIter := ⟨none, m.self⟩

/-- Keys after `k` in the order list: the node's `list_next` pointer
(`none` when `k` is the tail or not on the list). -/
def listNext (order : List Nat) (k : Nat) : Option Nat :=
  match order with
  | [] => none
  | a :: rest => if a = k then rest.head? else listNext rest k

/-- Helper for `listPrev`, carrying the previously visited key. -/
def listPrevAux (prev : Option Nat) : List Nat → Nat → Option Nat
  | [], _ => none
  | a :: rest, k => if a = k then prev else listPrevAux (some a) rest k

/-- Key before `k` in the order list: the node's `list_prev` pointer
(`none` when `k` is the head or not on the list). -/
def listPrev (order : List Nat) (k : Nat) : Option Nat :=
  listPrevAux none order k

/-- Mutable `operator++()` (prefix): `if (current) current = current->list_next`. -/
def Iter.incPre (m : LHM) (it : Iter) : Iter :=
  match it.current with
  | none => it
  | some k => { it with current := listNext m.order k }

/-- Mutable `operator++(int)` (postfix): returns `(temp, updated)`. -/
def Iter.incPost (m : LHM) (it : Iter) : Iter × Iter :=
  (it, it.incPre m)

/-- Mutable `operator--()` (prefix): `if (current) current = current->list_prev`. -/
def Iter.decPre (m : LHM) (it : Iter) : Iter :=
  match it.current with
  | none => it
  | some k => { it with current := listPrev m.order k }

/-- Mutable `operator--(int)` (postfix): returns `(temp, updated)`. -/
def Iter.decPost (m : LHM) (it : Iter) : Iter × Iter :=
  (it, it.decPre m)

/-- Read-only `operator++()` (prefix), same body as the mutable one. -/
def CIter.incPre (m : LHM) (it : CIter) : CIter :=
  match it.current with
  | none => it
  | some k => { it with current := listNext m.order k }

/-- Read-only `operator++(int)` (postfix). -/
def CIter.incPost (m : LHM) (it : CIter) : CIter × CIter :=
  (it, it.incPre m)

/-- Read-only `operator--()` (prefix). -/
def CIter.decPre (m : LHM) (it : CIter) : CIter :=
  match it.current with
  | none => it
  | some k => { it with current := listPrev m.order k }

/-- Read-only `operator--(int)` (postfix). -/
def CIter.decPost (m : LHM) (it : CIter) : CIter × CIter :=
  (it, it.decPre m)

/-- Dereference of a const iterator during the copy loop: the node's
stored pair. -/
def derefC (h : Nat → Nat) (m : LHM) (it : CIter) : Option Entry :=
  it.current.bind (findNode h m)

/-- The sequence of node data pairs visited by iterating `cbegin()` to
`cend()`: each key on the order list dereferenced through its node. -/
def entriesInOrder (h : Nat → Nat) (m : LHM) : List Entry :=
  m.order.filterMap (findNode h m)

/-- Copy constructor: fresh bucket array of `other.bucket_count` empty
chains, size 0, then `insert(*it)` for `it` from `other.cbegin()` to
`other.cend()`.  `t` is the new container's identity. -/
def copyCtor (h : Nat → Nat) (other : LHM) (t : Nat) : LHM :=
  (entriesInOrder h other).foldl (fun acc e => (insert h acc e).2)
    { buckets := List.replicate other.bucket_count []
      bucket_count := other.bucket_count
      element_count := 0
      order := []
      self := t }

/-- Public `swap(other)`: exchange all contents; the identities (the two
objects' addresses) stay put. -/
def swapMaps (a b : LHM) : LHM × LHM :=
  ({ b with self := a.self }, { a with self := b.self })

/-- Public `operator=`: on self-assignment do nothing; otherwise build a
full temporary copy of `other` and swap contents with it, keeping this
container's identity. -/
def assign (h : Nat → Nat) (m other : LHM) : LHM :=
  if m.self = other.self then m
  else { copyCtor h other m.self with self := m.self }

/-- Reachable container states: everything producible from a default
constructed map through the public mutating interface. -/
inductive Reachable (h : Nat → Nat) : LHM → Prop where
  | empty (t : Nat) : Reachable h (emptyMap t)
  | insert {m : LHM} (v : Entry) : Reachable h m →
      Reachable h (LinkedHashmap.insert h m v).2
  | index {m : LHM} (k : Nat) : Reachable h m →
      Reachable h (indexAccess h m k).2
  | erase {m m' : LHM} (pos : Iter) : Reachable h m →
      LinkedHashmap.erase h m pos = .ok m' → Reachable h m'
  | clear {m : LHM} : Reachable h m → Reachable h (LinkedHashmap.clear m)
  | copy {m : LHM} (t : Nat) : Reachable h m → Reachable h (copyCtor h m t)
  | assign {m other : LHM} : Reachable h m → Reachable h other →
      Reachable h (LinkedHashmap.assign h m other)
  | swapLeft {m other : LHM} : Reachable h m → Reachable h other →
      Reachable h (swapMaps m other).1
  | swapRight {m other : LHM} : Reachable h m → Reachable h other →
      Reachable h (swapMaps m other).2

/-- Placement invariant of a bucket array: every node sits in the chain
its key hashes to (`hash(key) % cap`). -/
def Placed (h : Nat → Nat) (cap : Nat) (bs : List (List Entry)) : Prop :=
  ∀ i, i < bs.length → ∀ e ∈ bs.getD i [], h e.1 % cap = i

instance (h : Nat → Nat) (cap : Nat) (bs : List (List Entry)) :
    Decidable (Placed h cap bs) := by
  unfold Placed; infer_instance

/-- Structural well-formedness of a container state: the bucket array has
`bucket_count` chains, the size counter counts the live nodes, the nodes
on the bucket chains carry (as a multiset) exactly the keys on the order
list, keys are unique, and every node sits in the chain its key hashes
to. -/
def WF (h : Nat → Nat) (m : LHM) : Prop :=
  m.buckets.length = m.bucket_count ∧
  0 < m.bucket_count ∧
  m.element_count = m.order.length ∧
  ((m.buckets.flatten.map Prod.fst : List Nat) : Multiset Nat) =
    (m.order : Multiset Nat) ∧
  m.order.Nodup ∧
  Placed h m.bucket_count m.buckets

instance (h : Nat → Nat) (m : LHM) : Decidable (WF h m) := by
  unfold WF; infer_instance

/-! Chain-walk lemmas. -/

theorem chainFind_mem_key {k : Nat} {c : List Entry} {e : Entry}
    (hf : chainFind k c = some e) : e ∈ c ∧ e.1 = k := by
  induction c with
  | nil => simp [chainFind] at hf
  | cons a rest ih =>
      rw [chainFind] at hf
      by_cases ha : a.1 = k
      · rw [if_pos ha] at hf
        injection hf with hf
        exact ⟨hf ▸ List.mem_cons_self a rest, hf ▸ ha⟩
      · rw [if_neg ha] at hf
        exact ⟨List.mem_cons_of_mem a (ih hf).1, (ih hf).2⟩

theorem chainFind_eq_none_iff {k : Nat} {c : List Entry} :
    chainFind k c = none ↔ ∀ e ∈ c, e.1 ≠ k := by
  induction c with
  | nil => simp [chainFind]
  | cons a rest ih =>
      rw [chainFind]
      by_cases ha : a.1 = k
      · simp [ha]
      · simp [ha, ih]

theorem chainFind_of_mem {k : Nat} {c : List Entry} {e : Entry}
    (hnd : (c.map Prod.fst).Nodup) (he : e ∈ c) (hk : e.1 = k) :
    chainFind k c = some e := by
  induction c with
  | nil => cases he
  | cons a rest ih =>
      rw [chainFind]
      rcases List.mem_cons.1 he with rfl | hmem
      · rw [if_pos hk]
      · have ha : a.1 ≠ k := by
          intro hak
          rw [List.map_cons, List.nodup_cons] at hnd
          exact hnd.1 (hak ▸ hk ▸ List.mem_map_of_mem Prod.fst hmem)
        rw [if_neg ha]
        exact ih (List.nodup_cons.1 (List.map_cons Prod.fst a rest ▸ hnd)).2 hmem

/-! Bucket-array list lemmas. -/

theorem getD_set_self {α : Type} {l : List α} {i : Nat} (hi : i < l.length)
    (a d : α) : (l.set i a).getD i d = a := by
  rw [List.getD_eq_getElem?_getD, List.getElem?_set_self hi]
  rfl

theorem getD_set_ne {α : Type} {l : List α} {i j : Nat} (hij : i ≠ j)
    (a d : α) : (l.set i a).getD j d = l.getD j d := by
  rw [List.getD_eq_getElem?_getD, List.getElem?_set_ne hij,
    ← List.getD_eq_getElem?_getD]

theorem getD_eq_getElem {α : Type} {l : List α} {i : Nat} (hi : i < l.length)
    (d : α) : l.getD i d = l.get ⟨i, hi⟩ := by
  rw [List.getD_eq_getElem?_getD, List.getElem?_eq_getElem hi]
  rfl

theorem mem_flatten_of_mem_getD {bs : List (List Entry)} {i : Nat} {e : Entry}
    (hi : i < bs.length) (he : e ∈ bs.getD i []) : e ∈ bs.flatten := by
  rw [getD_eq_getElem hi] at he
  exact List.mem_flatten.2 ⟨bs.get ⟨i, hi⟩, List.get_mem bs i hi, he⟩

theorem mem_getD_of_mem_flatten {h : Nat → Nat} {cap : Nat}
    {bs : List (List Entry)} {e : Entry} (hp : Placed h cap bs)
    (he : e ∈ bs.flatten) : e ∈ bs.getD (h e.1 % cap) [] := by
  rcases List.mem_flatten.1 he with ⟨c, hc, hec⟩
  rcases List.mem_iff_get.1 hc with ⟨⟨i, hi⟩, rfl⟩
  have : bs.getD i [] = bs.get ⟨i, hi⟩ := getD_eq_getElem hi []
  have hpi := hp i hi e (this ▸ hec)
  rw [hpi]
  exact this ▸ hec

theorem flatten_set_multiset {bs : List (List Entry)} {i : Nat}
    (hi : i < bs.length) (c' : List Entry) :
    (((bs.set i c').flatten : List Entry) : Multiset Entry) +
      ((bs.getD i [] : List Entry) : Multiset Entry) =
    ((c' : List Entry) : Multiset Entry) +
      ((bs.flatten : List Entry) : Multiset Entry) := by
  induction bs generalizing i with
  | nil => simp at hi
  | cons b rest ih =>
      cases i with
      | zero =>
          simp only [List.set, List.flatten_cons, List.getD_cons_zero,
            ← Multiset.coe_add]
          abel
      | succ j =>
          have hj : j < rest.length := by simpa using hi
          simp only [List.set, List.flatten_cons, List.getD_cons_succ,
            ← Multiset.coe_add]
          have hrec := ih (i := j) hj
          rw [add_assoc, hrec]
          abel

theorem placed_set {h : Nat → Nat} {cap : Nat} {bs : List (List Entry)}
    {i : Nat} {c' : List Entry} (hp : Placed h cap bs)
    (hc' : ∀ e ∈ c', h e.1 % cap = i) : Placed h cap (bs.set i c') := by
  intro j hj e he
  rw [List.length_set] at hj
  by_cases hij : i = j
  · subst hij
    rw [getD_set_self hj] at he
    exact hc' e he
  · rw [getD_set_ne hij] at he
    exact hp j hj e he

/-! Characterization of the bucket lookup on well-formed states. -/

theorem findNode_key {h : Nat → Nat} {m : LHM} {k : Nat} {e : Entry}
    (hf : findNode h m k = some e) : e.1 = k :=
  (chainFind_mem_key hf).2

theorem flatten_keys_nodup {h : Nat → Nat} {m : LHM} (hwf : WF h m) :
    (m.buckets.flatten.map Prod.fst).Nodup := by
  obtain ⟨-, -, -, hms, hnd, -⟩ := hwf
  have := Multiset.coe_nodup.2 hnd
  rw [← hms] at this
  exact Multiset.coe_nodup.1 this

theorem mem_order_iff_mem_flatten_keys {h : Nat → Nat} {m : LHM}
    (hwf : WF h m) {k : Nat} :
    k ∈ m.order ↔ k ∈ m.buckets.flatten.map Prod.fst := by
  obtain ⟨-, -, -, hms, -, -⟩ := hwf
  constructor
  · intro hk
    have : k ∈ (m.order : Multiset Nat) := Multiset.mem_coe.2 hk
    rw [← hms] at this
    exact Multiset.mem_coe.1 this
  · intro hk
    have : k ∈ ((m.buckets.flatten.map Prod.fst : List Nat) : Multiset Nat) :=
      Multiset.mem_coe.2 hk
    rw [hms] at this
    exact Multiset.mem_coe.1 this

theorem findNode_some_iff {h : Nat → Nat} {m : LHM} (hwf : WF h m)
    {k : Nat} {e : Entry} :
    findNode h m k = some e ↔ e ∈ m.buckets.flatten ∧ e.1 = k := by
  obtain ⟨hlen, hpos, -, -, -, hplaced⟩ := id hwf
  constructor
  · intro hf
    obtain ⟨hmem, hek⟩ := chainFind_mem_key hf
    have hidx : hash_index h m k < m.buckets.length := by
      rw [hlen]
      exact Nat.mod_lt _ hpos
    exact ⟨mem_flatten_of_mem_getD hidx hmem, hek⟩
  · rintro ⟨hmem, hek⟩
    have hchain := mem_getD_of_mem_flatten hplaced hmem
    have hnd : ((m.buckets.getD (h e.1 % m.bucket_count) []).map Prod.fst).Nodup := by
      have hsub : (m.buckets.getD (h e.1 % m.bucket_count) []).Sublist
          m.buckets.flatten := by
        by_cases hlt : h e.1 % m.bucket_count < m.buckets.length
        · rw [getD_eq_getElem hlt]
          exact List.sublist_flatten_of_mem (List.get_mem _ _ _)
        · rw [List.getD_eq_getElem?_getD, List.getElem?_eq_none (by omega)]
          exact List.nil_sublist _
      exact (flatten_keys_nodup hwf).sublist (hsub.map Prod.fst)
    have hcf : chainFind k (m.buckets.getD (h e.1 % m.bucket_count) []) = some e :=
      chainFind_of_mem hnd hchain hek
    rw [hek] at hcf
    rw [findNode, hash_index]
    exact hcf

theorem findNode_eq_none_iff {h : Nat → Nat} {m : LHM} (hwf : WF h m)
    {k : Nat} : findNode h m k = none ↔ k ∉ m.order := by
  constructor
  · intro hf hk
    rw [mem_order_iff_mem_flatten_keys hwf] at hk
    rcases List.mem_map.1 hk with ⟨e, hemem, hek⟩
    rw [(findNode_some_iff hwf).2 ⟨hemem, hek⟩] at hf
    cases hf
  · intro hk
    cases hf : findNode h m k with
    | none => rfl
    | some e =>
        obtain ⟨hemem, hek⟩ := (findNode_some_iff hwf).1 hf
        exact absurd ((mem_order_iff_mem_flatten_keys hwf).2
          (hek ▸ List.mem_map_of_mem Prod.fst hemem)) hk

theorem findNode_mem_order {h : Nat → Nat} {m : LHM} (hwf : WF h m)
    {k : Nat} (hk : k ∈ m.order) : ∃ v, findNode h m k = some (k, v) := by
  cases hf : findNode h m k with
  | none => exact absurd ((findNode_eq_none_iff hwf).1 hf) (not_not.2 hk)
  | some e =>
      have hek := findNode_key hf
      exact ⟨e.2, by rw [← hek, Prod.mk.eta]⟩

/-! Rehash: the relinking loop preserves length, placement and the
multiset of live nodes, and never touches the order list. -/

theorem rehashStep_spec {h : Nat → Nat} {cap : Nat} {bs : List (List Entry)}
    (e : Entry) (hlen : bs.length = cap) (hpos : 0 < cap)
    (hp : Placed h cap bs) :
    (rehashStep h cap bs e).length = cap ∧
    Placed h cap (rehashStep h cap bs e) ∧
    ((rehashStep h cap bs e).flatten : Multiset Entry) =
      e ::ₘ (bs.flatten : Multiset Entry) := by
  have hidx : h e.1 % cap < bs.length := by
    rw [hlen]
    exact Nat.mod_lt _ hpos
  refine ⟨by rw [rehashStep, List.length_set, hlen], ?_, ?_⟩
  · refine placed_set hp ?_
    intro e' he'
    rcases List.mem_cons.1 he' with rfl | hmem
    · rfl
    · exact hp _ hidx e' hmem
  · have hms := flatten_set_multiset hidx (e :: bs.getD (h e.1 % cap) [])
    have hcons : ((e :: bs.getD (h e.1 % cap) [] : List Entry) : Multiset Entry) =
        e ::ₘ ((bs.getD (h e.1 % cap) [] : List Entry) : Multiset Entry) := rfl
    rw [hcons] at hms
    apply add_right_cancel
      (b := ((bs.getD (h e.1 % cap) [] : List Entry) : Multiset Entry))
    simp only [rehashStep]
    rw [hms, Multiset.cons_add, Multiset.cons_add]
    rw [add_comm ((bs.getD (h e.1 % cap) [] : List Entry) : Multiset Entry)
      ((bs.flatten : List Entry) : Multiset Entry)]

theorem foldChain_spec {h : Nat → Nat} {cap : Nat} (l : List Entry) :
    ∀ bs : List (List Entry), bs.length = cap → 0 < cap → Placed h cap bs →
    (l.foldl (rehashStep h cap) bs).length = cap ∧
    Placed h cap (l.foldl (rehashStep h cap) bs) ∧
    ((l.foldl (rehashStep h cap) bs).flatten : Multiset Entry) =
      (l : Multiset Entry) + (bs.flatten : Multiset Entry) := by
  induction l with
  | nil =>
      intro bs hlen hpos hp
      simpa using ⟨hlen, hp⟩
  | cons e rest ih =>
      intro bs hlen hpos hp
      obtain ⟨hlen', hp', hms'⟩ := rehashStep_spec e hlen hpos hp
      obtain ⟨hlen'', hp'', hms''⟩ := ih (rehashStep h cap bs e) hlen' hpos hp'
      refine ⟨by simpa using hlen'', by simpa using hp'', ?_⟩
      rw [List.foldl_cons, hms'', hms']
      rw [show ((e :: rest : List Entry) : Multiset Entry) =
        e ::ₘ (rest : Multiset Entry) from rfl]
      rw [Multiset.cons_add, Multiset.add_cons]

theorem foldBuckets_spec {h : Nat → Nat} {cap : Nat} (bss : List (List Entry)) :
    ∀ bs : List (List Entry), bs.length = cap → 0 < cap → Placed h cap bs →
    (bss.foldl (fun acc chain => chain.foldl (rehashStep h cap) acc) bs).length = cap ∧
    Placed h cap (bss.foldl (fun acc chain => chain.foldl (rehashStep h cap) acc) bs) ∧
    ((bss.foldl (fun acc chain => chain.foldl (rehashStep h cap) acc) bs).flatten :
        Multiset Entry) =
      (bss.flatten : Multiset Entry) + (bs.flatten : Multiset Entry) := by
  induction bss with
  | nil =>
      intro bs hlen hpos hp
      simpa using ⟨hlen, hp⟩
  | cons chain rest ih =>
      intro bs hlen hpos hp
      obtain ⟨hlen', hp', hms'⟩ := foldChain_spec chain bs hlen hpos hp
      obtain ⟨hlen'', hp'', hms''⟩ :=
        ih (chain.foldl (rehashStep h cap) bs) hlen' hpos hp'
      refine ⟨by simpa using hlen'', by simpa using hp'', ?_⟩
      rw [List.foldl_cons, hms'', hms', List.flatten_cons, ← Multiset.coe_add]
      abel

theorem placed_replicate {h : Nat → Nat} {cap n : Nat} :
    Placed h cap (List.replicate n ([] : List Entry)) := by
  intro i hi e he
  rw [List.getD_eq_getElem?_getD, List.getElem?_replicate] at he
  split at he <;> simp at he

theorem flatten_replicate_nil {α : Type} {n : Nat} :
    (List.replicate n ([] : List α)).flatten = [] := by
  induction n with
  | zero => rfl
  | succ k ih => simp [List.replicate_succ, ih]

theorem rehash_spec {h : Nat → Nat} (m : LHM) {c : Nat} (hpos : 0 < c) :
    (rehash h m c).bucket_count = c ∧
    (rehash h m c).buckets.length = c ∧
    Placed h c (rehash h m c).buckets ∧
    ((rehash h m c).buckets.flatten : Multiset Entry) =
      (m.buckets.flatten : Multiset Entry) ∧
    (rehash h m c).order = m.order ∧
    (rehash h m c).element_count = m.element_count ∧
    (rehash h m c).self = m.self := by
  obtain ⟨hlen, hp, hms⟩ := foldBuckets_spec (h := h) m.buckets
    (List.replicate c ([] : List Entry)) (List.length_replicate c [])
    hpos placed_replicate
  refine ⟨rfl, hlen, hp, ?_, rfl, rfl, rfl⟩
  simpa [flatten_replicate_nil] using hms

theorem rehash_WF {h : Nat → Nat} {m : LHM} {c : Nat} (hwf : WF h m)
    (hpos : 0 < c) : WF h (rehash h m c) := by
  obtain ⟨-, -, hcount, hms, hnd, -⟩ := id hwf
  obtain ⟨hbc, hlen, hp, hflat, hord, hec, -⟩ := rehash_spec (h := h) m hpos
  refine ⟨by rw [hlen, hbc], by rw [hbc]; exact hpos, by rw [hec, hord]; exact hcount,
    ?_, by rw [hord]; exact hnd, by rw [hbc]; exact hp⟩
  rw [hord, ← hms]
  have : ((rehash h m c).buckets.flatten.map Prod.fst : Multiset Nat) =
      Multiset.map Prod.fst ((rehash h m c).buckets.flatten : Multiset Entry) :=
    (Multiset.map_coe Prod.fst _).symm
  rw [this, hflat, Multiset.map_coe]

theorem rehash_findNode {h : Nat → Nat} {m : LHM} {c : Nat} (hwf : WF h m)
    (hpos : 0 < c) {k : Nat} :
    findNode h (rehash h m c) k = findNode h m k := by
  have hwf' := rehash_WF hwf hpos
  have hmemiff : ∀ e : Entry,
      e ∈ (rehash h m c).buckets.flatten ↔ e ∈ m.buckets.flatten := by
    intro e
    obtain ⟨-, -, -, hflat, -, -, -⟩ := rehash_spec (h := h) m hpos
    constructor
    · intro he
      exact Multiset.mem_coe.1 (hflat ▸ Multiset.mem_coe.2 he)
    · intro he
      exact Multiset.mem_coe.1 (hflat.symm ▸ Multiset.mem_coe.2 he)
  cases hf : findNode h m k with
  | some e =>
      obtain ⟨hmem, hek⟩ := (findNode_some_iff hwf).1 hf
      exact (findNode_some_iff hwf').2 ⟨(hmemiff e).2 hmem, hek⟩
  | none =>
      cases hf' : findNode h (rehash h m c) k with
      | none => rfl
      | some e =>
          obtain ⟨hmem, hek⟩ := (findNode_some_iff hwf').1 hf'
          rw [(findNode_some_iff hwf).2 ⟨(hmemiff e).1 hmem, hek⟩] at hf
          cases hf

/-! Capacity check. -/

theorem ensure_frame {h : Nat → Nat} (m : LHM) :
    (ensure_capacity h m).order = m.order ∧
    (ensure_capacity h m).element_count = m.element_count ∧
    (ensure_capacity h m).self = m.self := by
  rw [ensure_capacity]
  split
  · exact ⟨rfl, rfl, rfl⟩
  · exact ⟨rfl, rfl, rfl⟩

theorem ensure_WF {h : Nat → Nat} {m : LHM} (hwf : WF h m) :
    WF h (ensure_capacity h m) := by
  rw [ensure_capacity]
  split
  · exact rehash_WF hwf (by have := hwf.2.1; omega)
  · exact hwf

theorem ensure_findNode {h : Nat → Nat} {m : LHM} (hwf : WF h m) {k : Nat} :
    findNode h (ensure_capacity h m) k = findNode h m k := by
  rw [ensure_capacity]
  split
  · exact rehash_findNode hwf (by have := hwf.2.1; omega)
  · rfl

/-! Insertion lemmas: duplicate keys are a no-op after the capacity
check; fresh keys are appended at the order-list tail. -/

theorem insertPost_dup {h : Nat → Nat} {m1 : LHM} {v : Entry} {e : Entry}
    (hf : findNode h m1 v.1 = some e) :
    insertPost h m1 v = ((⟨some e.1, m1.self⟩, false), m1) := by
  rw [insertPost, hf]

theorem insertPost_new {h : Nat → Nat} {m1 : LHM} {v : Entry}
    (hwf : WF h m1) (hf : findNode h m1 v.1 = none) :
    (insertPost h m1 v).1 = (⟨some v.1, m1.self⟩, true) ∧
    (insertPost h m1 v).2.order = m1.order ++ [v.1] ∧
    (insertPost h m1 v).2.element_count = m1.element_count + 1 ∧
    (insertPost h m1 v).2.bucket_count = m1.bucket_count ∧
    (insertPost h m1 v).2.self = m1.self ∧
    WF h (insertPost h m1 v).2 ∧
    findNode h (insertPost h m1 v).2 v.1 = some v ∧
    ∀ k, k ≠ v.1 → findNode h (insertPost h m1 v).2 k = findNode h m1 k := by
  obtain ⟨hlen, hpos, hcount, hms, hnd, hplaced⟩ := id hwf
  have hfresh : v.1 ∉ m1.order := (findNode_eq_none_iff hwf).1 hf
  rw [insertPost, hf]
  have hidx : hash_index h m1 v.1 < m1.buckets.length := by
    rw [hlen]
    exact Nat.mod_lt _ hpos
  have hsetms := flatten_set_multiset hidx
    (v :: m1.buckets.getD (hash_index h m1 v.1) [])
  have hflat : ((m1.buckets.set (hash_index h m1 v.1)
      (v :: m1.buckets.getD (hash_index h m1 v.1) [])).flatten : Multiset Entry) =
      v ::ₘ (m1.buckets.flatten : Multiset Entry) := by
    apply add_right_cancel
      (b := ((m1.buckets.getD (hash_index h m1 v.1) [] : List Entry) : Multiset Entry))
    rw [hsetms]
    rw [show ((v :: m1.buckets.getD (hash_index h m1 v.1) [] : List Entry) :
        Multiset Entry) =
      v ::ₘ ((m1.buckets.getD (hash_index h m1 v.1) [] : List Entry) :
        Multiset Entry) from rfl]
    rw [Multiset.cons_add, Multiset.cons_add]
    exact congrArg _ (add_comm _ _)
  have hwf2 : WF h { m1 with
      buckets := m1.buckets.set (hash_index h m1 v.1)
        (v :: m1.buckets.getD (hash_index h m1 v.1) [])
      order := m1.order ++ [v.1]
      element_count := m1.element_count + 1 } := by
    refine ⟨by simpa using hlen, hpos, by simpa using hcount, ?_, ?_, ?_⟩
    · show ((m1.buckets.set (hash_index h m1 v.1)
          (v :: m1.buckets.getD (hash_index h m1 v.1) [])).flatten.map Prod.fst :
            Multiset Nat) = ((m1.order ++ [v.1] : List Nat) : Multiset Nat)
      have hmap : ((m1.buckets.set (hash_index h m1 v.1)
          (v :: m1.buckets.getD (hash_index h m1 v.1) [])).flatten.map Prod.fst :
            Multiset Nat) =
          v.1 ::ₘ (m1.buckets.flatten.map Prod.fst : Multiset Nat) := by
        rw [← Multiset.map_coe, hflat, Multiset.map_cons, Multiset.map_coe]
      rw [hmap, hms, ← Multiset.coe_add, Multiset.coe_singleton, add_comm,
        Multiset.singleton_add]
    · show (m1.order ++ [v.1]).Nodup
      rw [List.nodup_append]
      exact ⟨hnd, List.nodup_singleton _, by
        intro a ha hb
        rw [List.mem_singleton] at hb
        exact hfresh (hb ▸ ha)⟩
    · show Placed h m1.bucket_count _
      refine placed_set hplaced ?_
      intro e he
      rcases List.mem_cons.1 he with rfl | hmem
      · rfl
      · exact hplaced _ hidx e hmem
  refine ⟨rfl, rfl, rfl, rfl, rfl, hwf2, ?_, ?_⟩
  · show findNode h _ v.1 = some v
    rw [findNode]
    have hsame : hash_index h { m1 with
        buckets := m1.buckets.set (hash_index h m1 v.1)
          (v :: m1.buckets.getD (hash_index h m1 v.1) [])
        order := m1.order ++ [v.1]
        element_count := m1.element_count + 1 } v.1 = hash_index h m1 v.1 := rfl
    rw [hsame]
    show chainFind v.1 ((m1.buckets.set (hash_index h m1 v.1)
      (v :: m1.buckets.getD (hash_index h m1 v.1) [])).getD (hash_index h m1 v.1) []) = some v
    rw [getD_set_self hidx]
    rw [chainFind, if_pos rfl]
  · intro k hk
    show findNode h _ k = findNode h m1 k
    rw [findNode, findNode]
    have hsame : hash_index h { m1 with
        buckets := m1.buckets.set (hash_index h m1 v.1)
          (v :: m1.buckets.getD (hash_index h m1 v.1) [])
        order := m1.order ++ [v.1]
        element_count := m1.element_count + 1 } k = hash_index h m1 k := rfl
    rw [hsame]
    by_cases hik : hash_index h m1 v.1 = hash_index h m1 k
    · show chainFind k ((m1.buckets.set (hash_index h m1 v.1)
        (v :: m1.buckets.getD (hash_index h m1 v.1) [])).getD (hash_index h m1 k) []) =
          chainFind k (m1.buckets.getD (hash_index h m1 k) [])
      rw [← hik, getD_set_self hidx, chainFind, if_neg (fun hvk => hk hvk.symm)]
    · show chainFind k ((m1.buckets.set (hash_index h m1 v.1)
        (v :: m1.buckets.getD (hash_index h m1 v.1) [])).getD (hash_index h m1 k) []) =
          chainFind k (m1.buckets.getD (hash_index h m1 k) [])
      rw [getD_set_ne hik]

theorem insert_dup {h : Nat → Nat} {m : LHM} {k v : Nat} (hwf : WF h m)
    (hk : k ∈ m.order) :
    insert h m (k, v) = ((⟨some k, m.self⟩, false), ensure_capacity h m) := by
  have hwf1 := ensure_WF hwf
  obtain ⟨w, hw⟩ := findNode_mem_order hwf hk
  have hf1 : findNode h (ensure_capacity h m) k = some (k, w) :=
    (ensure_findNode hwf).trans hw
  have hself := (ensure_frame (h := h) m).2.2
  rw [insert, insertPost_dup (v := (k, v)) hf1, hself]

theorem insert_new {h : Nat → Nat} {m : LHM} {v : Entry} (hwf : WF h m)
    (hv : v.1 ∉ m.order) :
    (insert h m v).1 = (⟨some v.1, m.self⟩, true) ∧
    (insert h m v).2.order = m.order ++ [v.1] ∧
    (insert h m v).2.element_count = m.element_count + 1 ∧
    (insert h m v).2.self = m.self ∧
    WF h (insert h m v).2 ∧
    findNode h (insert h m v).2 v.1 = some v ∧
    ∀ k, k ≠ v.1 → findNode h (insert h m v).2 k = findNode h m k := by
  have hwf1 := ensure_WF hwf
  obtain ⟨hord1, hcnt1, hself1⟩ := ensure_frame (h := h) m
  have hf1 : findNode h (ensure_capacity h m) v.1 = none := by
    rw [ensure_findNode hwf]
    exact (findNode_eq_none_iff hwf).2 hv
  obtain ⟨hres, hord, hcnt, -, hself, hwf2, hfind, hframe⟩ :=
    insertPost_new hwf1 hf1
  rw [insert]
  refine ⟨by rw [hres, hself1], by rw [hord, hord1], by rw [hcnt, hcnt1],
    by rw [hself, hself1], hwf2, hfind, ?_⟩
  intro k hk
  rw [hframe k hk, ensure_findNode hwf]

/-! Erase lemmas: the bucket-chain unlink removes exactly the found node. -/

theorem chainFind_decomp {k : Nat} {c : List Entry} {e : Entry}
    (hf : chainFind k c = some e) :
    ∃ c1 c2, c = c1 ++ [e] ++ c2 ∧ (∀ x ∈ c1, x.1 ≠ k) ∧
      c.eraseP (fun x => x.1 == k) = c1 ++ c2 := by
  induction c with
  | nil => simp [chainFind] at hf
  | cons a rest ih =>
      rw [chainFind] at hf
      by_cases ha : a.1 = k
      · rw [if_pos ha] at hf
        injection hf with hf
        subst hf
        refine ⟨[], rest, rfl, by simp, ?_⟩
        rw [List.eraseP_cons_of_pos (by simpa using ha)]
        rfl
      · rw [if_neg ha] at hf
        obtain ⟨c1, c2, hc, hc1, he⟩ := ih hf
        refine ⟨a :: c1, c2, by rw [List.cons_append, List.cons_append, ← hc],
          ?_, ?_⟩
        · intro x hx
          rcases List.mem_cons.1 hx with rfl | hx'
          · exact ha
          · exact hc1 x hx'
        · rw [List.eraseP_cons_of_neg (by simpa using ha), he]
          rfl

theorem erase_ok {h : Nat → Nat} {m : LHM} {k : Nat} (hwf : WF h m)
    (hk : k ∈ m.order) :
    ∃ m', erase h m ⟨some k, m.self⟩ = .ok m' ∧
      m'.order = m.order.erase k ∧
      m'.element_count = m.element_count - 1 ∧
      m'.bucket_count = m.bucket_count ∧
      m'.self = m.self ∧
      WF h m' ∧
      findNode h m' k = none ∧
      k ∉ m'.buckets.flatten.map Prod.fst := by
  obtain ⟨hlen, hpos, hcount, hms, hnd, hplaced⟩ := id hwf
  obtain ⟨w, hw⟩ := findNode_mem_order hwf hk
  have hidx : hash_index h m k < m.buckets.length := by
    rw [hlen]
    exact Nat.mod_lt _ hpos
  have hw' : chainFind k (m.buckets.getD (hash_index h m k) []) =
      some ((k : Nat), w) := hw
  obtain ⟨c1, c2, hc, -, herase⟩ := chainFind_decomp hw'
  have hsetms := flatten_set_multiset hidx (c1 ++ c2)
  rw [hc] at hsetms
  have hkey : ((m.buckets.flatten : List Entry) : Multiset Entry) =
      (([((k : Nat), w)] : List Entry) : Multiset Entry) +
        (((m.buckets.set (hash_index h m k)
          (c1 ++ c2)).flatten : List Entry) : Multiset Entry) := by
    apply add_right_cancel (b := ((c1 ++ c2 : List Entry) : Multiset Entry))
    simp only [← Multiset.coe_add] at hsetms ⊢
    abel_nf at hsetms ⊢
    exact hsetms.symm
  have hmapped : ((m.buckets.flatten.map Prod.fst : List Nat) : Multiset Nat) =
      (([k] : List Nat) : Multiset Nat) +
        ((m.buckets.set (hash_index h m k)
          (c1 ++ c2)).flatten.map Prod.fst : Multiset Nat) := by
    rw [← Multiset.map_coe, hkey, Multiset.map_add, Multiset.map_coe,
      Multiset.map_coe]
    rfl
  have hms' : ((m.buckets.set (hash_index h m k)
      (c1 ++ c2)).flatten.map Prod.fst : Multiset Nat) =
      ((m.order.erase k : List Nat) : Multiset Nat) := by
    rw [← Multiset.coe_erase, ← hms, hmapped, Multiset.coe_singleton,
      Multiset.singleton_add, Multiset.erase_cons_head]
  have hwf' : WF h { m with
      buckets := m.buckets.set (hash_index h m k)
        ((m.buckets.getD (hash_index h m k) []).eraseP (fun e => e.1 == k))
      order := m.order.erase k
      element_count := m.element_count - 1 } := by
    refine ⟨?_, hpos, ?_, ?_, hnd.erase k, ?_⟩
    · show (m.buckets.set _ _).length = m.bucket_count
      rw [List.length_set]
      exact hlen
    · show m.element_count - 1 = (m.order.erase k).length
      rw [List.length_erase_of_mem hk, hcount]
    · show ((m.buckets.set (hash_index h m k)
          ((m.buckets.getD (hash_index h m k) []).eraseP
            (fun e => e.1 == k))).flatten.map Prod.fst : Multiset Nat) =
        ((m.order.erase k : List Nat) : Multiset Nat)
      rw [herase]
      exact hms'
    · show Placed h m.bucket_count
        (m.buckets.set (hash_index h m k)
          ((m.buckets.getD (hash_index h m k) []).eraseP (fun e => e.1 == k)))
      rw [herase]
      refine placed_set hplaced ?_
      intro e he
      have hmem : e ∈ m.buckets.getD (hash_index h m k) [] := by
        rw [hc]
        rcases List.mem_append.1 he with h1 | h2
        · exact List.mem_append.2 (Or.inl (List.mem_append.2 (Or.inl h1)))
        · exact List.mem_append.2 (Or.inr h2)
      exact hplaced _ hidx e hmem
  have hknot : k ∉ m.order.erase k := by
    intro hmem
    exact absurd rfl (hnd.mem_erase_iff.1 hmem).1
  refine ⟨{ m with
      buckets := m.buckets.set (hash_index h m k)
        ((m.buckets.getD (hash_index h m k) []).eraseP (fun e => e.1 == k))
      order := m.order.erase k
      element_count := m.element_count - 1 }, ?_, rfl, rfl, rfl, rfl, hwf', ?_, ?_⟩
  · show (if m.self ≠ m.self then Except.error MapError.invalid_iterator
      else Except.ok _) = Except.ok _
    rw [if_neg (by simp)]
  · exact (findNode_eq_none_iff hwf').2 hknot
  · intro hmem
    exact hknot ((mem_order_iff_mem_flatten_keys hwf').2 hmem)

/-! Load-factor invariant: on every reachable state the capacity is a
positive multiple of 4 (it starts at 16 and only doubles) and the size
never exceeds 0.75 of it. -/

def Inv (m : LHM) : Prop :=
  0 < m.bucket_count ∧ 4 ∣ m.bucket_count ∧
  4 * m.element_count ≤ 3 * m.bucket_count

theorem insertPost_none_eq {h : Nat → Nat} {m1 : LHM} {v : Entry}
    (hf : findNode h m1 v.1 = none) :
    insertPost h m1 v = ((⟨some v.1, m1.self⟩, true),
      { m1 with
        buckets := m1.buckets.set (hash_index h m1 v.1)
          (v :: m1.buckets.getD (hash_index h m1 v.1) [])
        order := m1.order ++ [v.1]
        element_count := m1.element_count + 1 }) := by
  rw [insertPost, hf]

theorem ensure_Inv {h : Nat → Nat} {m : LHM} (hinv : Inv m) :
    Inv (ensure_capacity h m) ∧
    4 * ((ensure_capacity h m).element_count + 1) ≤
      3 * (ensure_capacity h m).bucket_count := by
  obtain ⟨hpos, hdvd, hload⟩ := hinv
  obtain ⟨j, hj⟩ := hdvd
  rw [ensure_capacity]
  split
  case isTrue hcond =>
    have hbc : (rehash h m (m.bucket_count * 2)).bucket_count =
        m.bucket_count * 2 := rfl
    have hc2 : (rehash h m (m.bucket_count * 2)).element_count =
        m.element_count := rfl
    refine ⟨⟨by rw [hbc]; omega, ⟨2 * j, by rw [hbc]; omega⟩, ?_⟩, ?_⟩
    · rw [hbc, hc2]; omega
    · rw [hbc, hc2]; omega
  case isFalse hcond =>
    exact ⟨⟨hpos, ⟨j, hj⟩, hload⟩, by omega⟩

theorem insert_Inv {h : Nat → Nat} {m : LHM} (hinv : Inv m) (v : Entry) :
    Inv (insert h m v).2 := by
  obtain ⟨⟨hpos1, hdvd1, hload1⟩, hstep⟩ := ensure_Inv (h := h) hinv
  rw [insert]
  cases hfind : findNode h (ensure_capacity h m) v.1 with
  | some e =>
      rw [insertPost_dup hfind]
      exact ⟨hpos1, hdvd1, hload1⟩
  | none =>
      rw [insertPost_none_eq hfind]
      exact ⟨hpos1, hdvd1, hstep⟩

theorem indexAccess_Inv {h : Nat → Nat} {m : LHM} (hinv : Inv m) (k : Nat) :
    Inv (indexAccess h m k).2 := by
  rw [indexAccess]
  cases hfind : findNode h m k with
  | some e => exact hinv
  | none => exact insert_Inv hinv (k, 0)

theorem erase_ok_Inv {h : Nat → Nat} {m m' : LHM} {pos : Iter}
    (hok : erase h m pos = .ok m') (hinv : Inv m) : Inv m' := by
  obtain ⟨cur, cont⟩ := pos
  cases cur with
  | none => simp [erase] at hok
  | some k =>
      simp only [erase] at hok
      split at hok
      · cases hok
      · injection hok with hok
        obtain ⟨hpos, hdvd, hload⟩ := hinv
        rw [← hok]
        refine ⟨hpos, hdvd, ?_⟩
        show 4 * (m.element_count - 1) ≤ 3 * m.bucket_count
        omega

theorem clear_Inv {m : LHM} (hinv : Inv m) : Inv (clear m) := by
  obtain ⟨hpos, hdvd, hload⟩ := hinv
  exact ⟨hpos, hdvd, by simp [clear]⟩

theorem foldl_insert_Inv {h : Nat → Nat} (es : List Entry) :
    ∀ s : LHM, Inv s → Inv (es.foldl (fun acc e => (insert h acc e).2) s) := by
  induction es with
  | nil => exact fun s hs => hs
  | cons e rest ih => exact fun s hs => ih _ (insert_Inv hs e)

theorem copyCtor_Inv {h : Nat → Nat} {m : LHM} (hinv : Inv m) (t : Nat) :
    Inv (copyCtor h m t) := by
  obtain ⟨hpos, hdvd, -⟩ := hinv
  exact foldl_insert_Inv _ _ ⟨hpos, hdvd, by simp⟩

theorem assign_Inv {h : Nat → Nat} {m other : LHM} (hm : Inv m)
    (hother : Inv other) : Inv (assign h m other) := by
  rw [assign]
  split
  · exact hm
  · obtain ⟨hpos, hdvd, hload⟩ := copyCtor_Inv (h := h) hother m.self
    exact ⟨hpos, hdvd, hload⟩

theorem reachable_Inv {h : Nat → Nat} {m : LHM} (hr : Reachable h m) :
    Inv m := by
  induction hr with
  | empty t =>
      refine ⟨?_, ?_, ?_⟩
      · show (0 : Nat) < 16
        decide
      · show (4 : Nat) ∣ 16
        decide
      · show 4 * 0 ≤ 3 * 16
        decide
  | insert v _ ih => exact insert_Inv ih v
  | index k _ ih => exact indexAccess_Inv ih k
  | erase pos _ hok ih => exact erase_ok_Inv hok ih
  | clear _ ih => exact clear_Inv ih
  | copy t _ ih => exact copyCtor_Inv ih t
  | assign _ _ ih1 ih2 => exact assign_Inv ih1 ih2
  | swapLeft _ _ ih1 ih2 => exact ⟨ih2.1, ih2.2.1, ih2.2.2⟩
  | swapRight _ _ ih1 ih2 => exact ⟨ih1.1, ih1.2.1, ih1.2.2⟩

/-! Copy construction: inserting the source's entries in iteration order
into a fresh container reproduces keys, values and order exactly. -/

theorem foldl_insert_spec {h : Nat → Nat} (es : List Entry) :
    ∀ s : LHM, WF h s → (∀ e ∈ es, e.1 ∉ s.order) → (es.map Prod.fst).Nodup →
    WF h (es.foldl (fun acc e => (insert h acc e).2) s) ∧
    (es.foldl (fun acc e => (insert h acc e).2) s).order =
      s.order ++ es.map Prod.fst ∧
    (es.foldl (fun acc e => (insert h acc e).2) s).self = s.self ∧
    (es.foldl (fun acc e => (insert h acc e).2) s).element_count =
      s.element_count + es.length ∧
    (∀ e ∈ es,
      findNode h (es.foldl (fun acc e => (insert h acc e).2) s) e.1 = some e) ∧
    (∀ k, k ∉ es.map Prod.fst →
      findNode h (es.foldl (fun acc e => (insert h acc e).2) s) k =
        findNode h s k) := by
  induction es with
  | nil =>
      intro s hwf hfresh hnd
      refine ⟨hwf, by simp, rfl, by simp, by simp, fun k _ => rfl⟩
  | cons e rest ih =>
      intro s hwf hfresh hnd
      have hfe : e.1 ∉ s.order := hfresh e (List.mem_cons_self e rest)
      obtain ⟨hres, hord, hcnt, hself, hwf1, hfind1, hframe1⟩ := insert_new hwf hfe
      have hndhead : e.1 ∉ List.map Prod.fst rest :=
        (List.nodup_cons.1 (List.map_cons Prod.fst e rest ▸ hnd)).1
      have hnd' : (List.map Prod.fst rest).Nodup :=
        (List.nodup_cons.1 (List.map_cons Prod.fst e rest ▸ hnd)).2
      have hfresh' : ∀ x ∈ rest, x.1 ∉ (insert h s e).2.order := by
        intro x hx
        rw [hord]
        intro hmem
        rcases List.mem_append.1 hmem with h1 | h2
        · exact hfresh x (List.mem_cons_of_mem e hx) h1
        · rw [List.mem_singleton] at h2
          exact hndhead (h2 ▸ List.mem_map_of_mem Prod.fst hx)
      obtain ⟨hwfR, hordR, hselfR, hcntR, hfindR, hframeR⟩ :=
        ih (insert h s e).2 hwf1 hfresh' hnd'
      rw [List.foldl_cons]
      refine ⟨hwfR, ?_, ?_, ?_, ?_, ?_⟩
      · rw [hordR, hord, List.append_assoc]
        rfl
      · rw [hselfR, hself]
      · rw [hcntR, hcnt, List.length_cons]
        omega
      · intro x hx
        rcases List.mem_cons.1 hx with rfl | hx'
        · rw [hframeR x.1 hndhead, hfind1]
        · exact hfindR x hx'
      · intro k hk
        rw [List.map_cons] at hk
        have hk1 : k ≠ e.1 := fun hh => hk (hh ▸ List.mem_cons_self _ _)
        have hk2 : k ∉ List.map Prod.fst rest :=
          fun hh => hk (List.mem_cons_of_mem _ hh)
        rw [hframeR k hk2, hframe1 k hk1]

theorem filterMap_findNode_spec {h : Nat → Nat} {m : LHM} (l : List Nat)
    (hall : ∀ k ∈ l, ∃ v, findNode h m k = some (k, v)) :
    (l.filterMap (findNode h m)).map Prod.fst = l ∧
    ∀ e ∈ l.filterMap (findNode h m), findNode h m e.1 = some e := by
  induction l with
  | nil => exact ⟨rfl, by simp⟩
  | cons a rest ih =>
      obtain ⟨v, hv⟩ := hall a (List.mem_cons_self a rest)
      obtain ⟨ih1, ih2⟩ := ih (fun k hk => hall k (List.mem_cons_of_mem a hk))
      rw [List.filterMap_cons_some hv]
      refine ⟨by rw [List.map_cons, ih1], ?_⟩
      intro e he
      rcases List.mem_cons.1 he with rfl | he'
      · exact hv
      · exact ih2 e he'

theorem entriesInOrder_spec {h : Nat → Nat} {m : LHM} (hwf : WF h m) :
    (entriesInOrder h m).map Prod.fst = m.order ∧
    ∀ e ∈ entriesInOrder h m, findNode h m e.1 = some e :=
  filterMap_findNode_spec m.order (fun _ hk => findNode_mem_order hwf hk)

theorem getD_replicate_nil {α : Type} {n i : Nat} :
    (List.replicate n ([] : List α)).getD i [] = [] := by
  rw [List.getD_eq_getElem?_getD, List.getElem?_replicate]
  split <;> rfl

theorem WF_emptyWith {h : Nat → Nat} {bc t : Nat} (hpos : 0 < bc) :
    WF h { buckets := List.replicate bc [], bucket_count := bc,
           element_count := 0, order := [], self := t } := by
  refine ⟨List.length_replicate bc [], hpos, rfl, ?_, List.nodup_nil, ?_⟩
  · show ((List.replicate bc ([] : List Entry)).flatten.map Prod.fst :
        List Nat) = (([] : List Nat) : Multiset Nat)
    rw [flatten_replicate_nil]
    rfl
  · show Placed h bc (List.replicate bc [])
    exact placed_replicate

theorem findNode_emptyWith {h : Nat → Nat} {bc t k : Nat} :
    findNode h { buckets := List.replicate bc [], bucket_count := bc,
                 element_count := 0, order := ([] : List Nat),
                 self := t } k = none := by
  show chainFind k ((List.replicate bc ([] : List Entry)).getD _ []) = none
  rw [getD_replicate_nil]
  rfl

theorem copyCtor_spec {h : Nat → Nat} {m : LHM} (hwf : WF h m) (t : Nat) :
    WF h (copyCtor h m t) ∧
    (copyCtor h m t).order = m.order ∧
    (copyCtor h m t).self = t ∧
    (copyCtor h m t).element_count = m.element_count ∧
    ∀ k, findNode h (copyCtor h m t) k = findNode h m k := by
  obtain ⟨hmap, hall⟩ := entriesInOrder_spec hwf
  have hnd : ((entriesInOrder h m).map Prod.fst).Nodup := by
    rw [hmap]
    exact hwf.2.2.2.2.1
  have hfresh : ∀ e ∈ entriesInOrder h m,
      e.1 ∉ ({ buckets := List.replicate m.bucket_count [],
               bucket_count := m.bucket_count, element_count := 0,
               order := ([] : List Nat), self := t } : LHM).order := by
    simp
  obtain ⟨hwfR, hordR, hselfR, hcntR, hfindR, hframeR⟩ :=
    foldl_insert_spec (h := h) (entriesInOrder h m) _ (WF_emptyWith hwf.2.1)
      hfresh hnd
  rw [copyCtor]
  refine ⟨hwfR, ?_, hselfR, ?_, ?_⟩
  · rw [hordR, hmap]
    rfl
  · rw [hcntR]
    have : (entriesInOrder h m).length = m.order.length := by
      rw [← hmap, List.length_map]
    rw [this, ← hwf.2.2.1]
    show 0 + m.element_count = m.element_count
    omega
  · intro k
    by_cases hk : k ∈ m.order
    · rw [← hmap] at hk
      rcases List.mem_map.1 hk with ⟨e, hemem, hek⟩
      rw [← hek, hfindR e hemem, hall e hemem]
    · have hk' : k ∉ (entriesInOrder h m).map Prod.fst := by
        rw [hmap]
        exact hk
      rw [hframeR k hk', findNode_emptyWith,
        (findNode_eq_none_iff hwf).2 hk]

/-! Claim theorems. -/

/-- C1: for every well-formed map state and every key already present in
the map, `insert` with that key and any value returns an iterator to the
existing entry paired with `false`, and leaves the entry's stored value
(the node `findNode` returns), its position in iteration order (the whole
order list is unchanged), and the map's size unchanged. -/
theorem c1_insert_existing_key {h : Nat → Nat} {m : LHM} {k v : Nat}
    (hwf : WF h m) (hk : k ∈ m.order) :
    (insert h m (k, v)).1 = (⟨some k, m.self⟩, false) ∧
    (insert h m (k, v)).2.order = m.order ∧
    (insert h m (k, v)).2.element_count = m.element_count ∧
    findNode h (insert h m (k, v)).2 k = findNode h m k := by
  have hdup := insert_dup (v := v) hwf hk
  obtain ⟨hord, hcnt, -⟩ := ensure_frame (h := h) m
  rw [hdup]
  exact ⟨rfl, hord, hcnt, ensure_findNode hwf⟩

/-- C2: on every reachable map state, immediately after any insertion the
size `n` and capacity `c_after` satisfy `n ≤ 0.75 * c_after` (written
`4 * n ≤ 3 * c_after` over `Nat`); the capacity used is the one settled
by `ensure_capacity` before the duplicate walk and the linking, so the
rehash needed to guarantee the bound happens before the new entry is
linked. -/
theorem c2_load_factor_after_insert {h : Nat → Nat} {m : LHM}
    (hr : Reachable h m) (v : Entry) :
    4 * (insert h m v).2.element_count ≤ 3 * (insert h m v).2.bucket_count ∧
    (insert h m v).2.bucket_count = (ensure_capacity h m).bucket_count := by
  refine ⟨(insert_Inv (reachable_Inv hr) v).2.2, ?_⟩
  rw [insert]
  cases hfind : findNode h (ensure_capacity h m) v.1 with
  | some e => rw [insertPost_dup hfind]
  | none => rw [insertPost_none_eq hfind]

/-- C3: from an empty map, inserting distinct keys `a, b, c` in that
order yields iteration order exactly `a, b, c`; erasing `b` (through the
iterator `find` returns) and re-inserting `b` yields iteration order
`a, c, b`, the re-inserted key taking a new position at the end. -/
theorem c3_iteration_order (h : Nat → Nat) (t a b c va vb vc vb2 : Nat)
    (hab : a ≠ b) (hac : a ≠ c) (hbc : b ≠ c) :
    (insert h (insert h (insert h (emptyMap t) (a, va)).2 (b, vb)).2
      (c, vc)).2.order = [a, b, c] ∧
    ∃ m4,
      erase h
        (insert h (insert h (insert h (emptyMap t) (a, va)).2 (b, vb)).2
          (c, vc)).2
        (find h
          (insert h (insert h (insert h (emptyMap t) (a, va)).2 (b, vb)).2
            (c, vc)).2 b) = .ok m4 ∧
      m4.order = [a, c] ∧
      (insert h m4 (b, vb2)).2.order = [a, c, b] := by
  have hwf0 : WF h (emptyMap t) := WF_emptyWith (by decide)
  have ha0 : (a, va).1 ∉ (emptyMap t).order := List.not_mem_nil _
  obtain ⟨-, hord1, -, -, hwf1, -, -⟩ := insert_new hwf0 ha0
  have horder1 : (insert h (emptyMap t) (a, va)).2.order = [a] := by
    rw [hord1]
    rfl
  have hb1 : (b, vb).1 ∉ (insert h (emptyMap t) (a, va)).2.order := by
    rw [horder1]
    intro hmem
    rw [List.mem_singleton] at hmem
    exact hab hmem.symm
  obtain ⟨-, hord2, -, -, hwf2, hfind2, -⟩ := insert_new hwf1 hb1
  have horder2 : (insert h (insert h (emptyMap t) (a, va)).2 (b, vb)).2.order =
      [a, b] := by
    rw [hord2, horder1]
    rfl
  have hc2 : (c, vc).1 ∉
      (insert h (insert h (emptyMap t) (a, va)).2 (b, vb)).2.order := by
    rw [horder2]
    intro hmem
    rcases List.mem_cons.1 hmem with hca | hmem'
    · exact hac hca.symm
    · rw [List.mem_singleton] at hmem'
      exact hbc hmem'.symm
  obtain ⟨-, hord3, -, -, hwf3, -, hframe3⟩ := insert_new hwf2 hc2
  have horder3 : (insert h (insert h (insert h (emptyMap t) (a, va)).2
      (b, vb)).2 (c, vc)).2.order = [a, b, c] := by
    rw [hord3, horder2]
    rfl
  have hfind3 : findNode h (insert h (insert h (insert h (emptyMap t)
      (a, va)).2 (b, vb)).2 (c, vc)).2 b = some (b, vb) := by
    rw [hframe3 b hbc, hfind2]
  have hfindit : find h (insert h (insert h (insert h (emptyMap t)
      (a, va)).2 (b, vb)).2 (c, vc)).2 b =
      ⟨some b, (insert h (insert h (insert h (emptyMap t) (a, va)).2
        (b, vb)).2 (c, vc)).2.self⟩ := by
    rw [find, hfind3]
  have hbmem : b ∈ (insert h (insert h (insert h (emptyMap t) (a, va)).2
      (b, vb)).2 (c, vc)).2.order := by
    rw [horder3]
    exact List.mem_cons_of_mem a (List.mem_cons_self b [c])
  obtain ⟨m4, hok, hord4, -, -, -, hwf4, -, -⟩ := erase_ok hwf3 hbmem
  have herase_list : ([a, b, c] : List Nat).erase b = [a, c] := by
    rw [List.erase_cons_tail, List.erase_cons_head]
    simp [hab]
  have horder4 : m4.order = [a, c] := by
    rw [hord4, horder3, herase_list]
  have hb4 : (b, vb2).1 ∉ m4.order := by
    rw [horder4]
    intro hmem
    rcases List.mem_cons.1 hmem with hba | hmem'
    · exact hab hba.symm
    · rw [List.mem_singleton] at hmem'
      exact hbc hmem'
  obtain ⟨-, hord5, -, -, -, -, -⟩ := insert_new hwf4 hb4
  refine ⟨horder3, m4, ?_, horder4, ?_⟩
  · rw [hfindit]
    exact hok
  · rw [hord5, horder4]
    rfl

/-- C4: a rehash (to any positive capacity) relinks every live entry
into the new chains, so lookup of every key present before still
succeeds and returns the same node, and it leaves the order list, the
size and the iteration order completely unchanged. -/
theorem c4_rehash_preserves_contents {h : Nat → Nat} {m : LHM} {c : Nat}
    (hwf : WF h m) (hpos : 0 < c) :
    (rehash h m c).order = m.order ∧
    (rehash h m c).element_count = m.element_count ∧
    (rehash h m c).bucket_count = c ∧
    WF h (rehash h m c) ∧
    (∀ k, findNode h (rehash h m c) k = findNode h m k) ∧
    ∀ k ∈ m.order, (find h (rehash h m c) k).current = some k := by
  obtain ⟨hbc, -, -, -, hord, hcnt, -⟩ := rehash_spec (h := h) m hpos
  refine ⟨hord, hcnt, hbc, rehash_WF hwf hpos,
    fun k => rehash_findNode hwf hpos, ?_⟩
  intro k hk
  obtain ⟨w, hw⟩ := findNode_mem_order hwf hk
  rw [find, rehash_findNode hwf hpos, hw]

/-- C5: `erase` raises `invalid_iterator` exactly when the iterator is
past-the-end (`current = none`) or belongs to a different container, and
in that case no state is produced; otherwise it removes the referenced
entry from the bucket chains and the order list, decreases the size by
one, and afterwards `find` on that key returns the past-the-end
iterator.  The hypothesis restricts attention to iterators that are
valid in the C++ sense (dangling iterators are undefined behaviour). -/
theorem c5_erase_validation {h : Nat → Nat} {m : LHM} {it : Iter}
    (hwf : WF h m)
    (hvalid : it.current = none ∨ it.container ≠ m.self ∨
      ∃ k, it.current = some k ∧ k ∈ m.order) :
    (erase h m it = .error .invalid_iterator ↔
      (it.current = none ∨ it.container ≠ m.self)) ∧
    ∀ k, it.current = some k → it.container = m.self → k ∈ m.order →
      ∃ m', erase h m it = .ok m' ∧
        m'.element_count = m.element_count - 1 ∧
        m'.order = m.order.erase k ∧
        k ∉ m'.buckets.flatten.map Prod.fst ∧
        find h m' k = endIter m' ∧
        m'.self = m.self := by
  obtain ⟨cur, cont⟩ := it
  constructor
  · constructor
    · intro herr
      by_cases hnone : cur = none
      · exact Or.inl hnone
      · right
        intro hcont
        obtain ⟨k, rfl⟩ : ∃ k, cur = some k := by
          cases cur with
          | none => exact absurd rfl hnone
          | some k => exact ⟨k, rfl⟩
        rcases hvalid with h1 | h2 | ⟨k', hk', hmem⟩
        · exact hnone h1
        · exact h2 hcont
        · injection hk' with hk'
          subst hk'
          subst hcont
          obtain ⟨m', hok, -⟩ := erase_ok hwf hmem
          rw [hok] at herr
          cases herr
    · rintro (hnone | hcont)
      · subst hnone
        rfl
      · cases cur with
        | none => rfl
        | some k =>
            show (if cont ≠ m.self then Except.error MapError.invalid_iterator
              else _) = _
            rw [if_pos hcont]
  · intro k hcur hcont hk
    subst hcur
    subst hcont
    obtain ⟨m', hok, hord', hcnt', -, hself', -, hfnone, hknot⟩ :=
      erase_ok hwf hk
    refine ⟨m', hok, hcnt', hord', hknot, ?_, hself'⟩
    rw [find, hfnone]
    exact rfl

/-- C6: for every well-formed map state and key, `at` returns the stored
value when the key is present and raises `index_out_of_bound` exactly
when the key is absent; read-only index access behaves identically.  As
a pure function of the state, `at` leaves the map unchanged by
construction. -/
theorem c6_at_access {h : Nat → Nat} {m : LHM} {k : Nat} (hwf : WF h m) :
    (k ∈ m.order → ∃ v, findNode h m k = some (k, v) ∧ atKey h m k = .ok v) ∧
    (k ∉ m.order → atKey h m k = .error .index_out_of_bound) ∧
    indexAccessConst h m k = atKey h m k := by
  refine ⟨?_, ?_, rfl⟩
  · intro hk
    obtain ⟨v, hv⟩ := findNode_mem_order hwf hk
    exact ⟨v, hv, by rw [atKey, hv]⟩
  · intro hk
    rw [atKey, (findNode_eq_none_iff hwf).2 hk]

/-- C7: mutable index access never fails: on a present key it returns
the stored value and the unchanged map; on an absent key it inserts an
entry carrying the default value `0` as the new last entry in iteration
order, increases the size by one, and returns that value. -/
theorem c7_mutable_index_access {h : Nat → Nat} {m : LHM} {k : Nat}
    (hwf : WF h m) :
    (k ∈ m.order → ∃ v, findNode h m k = some (k, v) ∧
      indexAccess h m k = (v, m)) ∧
    (k ∉ m.order →
      (indexAccess h m k).1 = 0 ∧
      (indexAccess h m k).2.order = m.order ++ [k] ∧
      (indexAccess h m k).2.element_count = m.element_count + 1 ∧
      findNode h (indexAccess h m k).2 k = some (k, 0)) := by
  constructor
  · intro hk
    obtain ⟨v, hv⟩ := findNode_mem_order hwf hk
    exact ⟨v, hv, by rw [indexAccess, hv]⟩
  · intro hk
    have hnone := (findNode_eq_none_iff hwf).2 hk
    obtain ⟨hres, hord, hcnt, -, -, hfind, -⟩ :=
      insert_new (v := ((k : Nat), 0)) hwf hk
    rw [indexAccess, hnone]
    refine ⟨?_, hord, hcnt, hfind⟩
    show ((((insert h m ((k : Nat), 0)).1.1.current.bind
      (findNode h (insert h m ((k : Nat), 0)).2)).map Prod.snd).getD 0) = 0
    have hcur : (insert h m ((k : Nat), 0)).1.1.current = some k := by
      rw [hres]
    rw [hcur, Option.some_bind, hfind]
    rfl

/-- C8: the capacity check (and rehash, when triggered) happens before
the duplicate-check walk of every insertion attempt, so inserting an
already-present key while the size is at the load-factor threshold still
doubles the capacity even though no entry is added, the size, order and
returned `false` flag being unchanged. -/
theorem c8_duplicate_insert_still_rehashes {h : Nat → Nat} {m : LHM}
    {k v : Nat} (hwf : WF h m) (hk : k ∈ m.order)
    (hload : 4 * m.element_count ≥ 3 * m.bucket_count) :
    (insert h m (k, v)).2.bucket_count = m.bucket_count * 2 ∧
    (insert h m (k, v)).1.2 = false ∧
    (insert h m (k, v)).2.element_count = m.element_count ∧
    (insert h m (k, v)).2.order = m.order := by
  have hdup := insert_dup (v := v) hwf hk
  have hens : ensure_capacity h m = rehash h m (m.bucket_count * 2) := by
    rw [ensure_capacity, if_pos hload]
  rw [hdup, hens]
  exact ⟨rfl, rfl, rfl, rfl⟩

/-- C9: copy construction produces a map with the same keys, stored
values and iteration order, built by iterating the source in order and
re-inserting fresh entries; assignment (copy-and-swap) gives the
assigned-to container the source's contents while keeping its own
identity.  Operations in this embedding are pure functions returning new
states, so a later insert or erase on the copy cannot alter the source
and vice versa, by construction. -/
theorem c9_copy_independence {h : Nat → Nat} {x m : LHM} {t : Nat}
    (hwf : WF h m) :
    (copyCtor h m t).order = m.order ∧
    (copyCtor h m t).element_count = m.element_count ∧
    (copyCtor h m t).self = t ∧
    (∀ k, findNode h (copyCtor h m t) k = findNode h m k) ∧
    WF h (copyCtor h m t) ∧
    (x.self ≠ m.self →
      (assign h x m).order = m.order ∧
      (assign h x m).self = x.self ∧
      (assign h x m).element_count = m.element_count ∧
      ∀ k, findNode h (assign h x m) k = findNode h m k) := by
  obtain ⟨hwfC, hordC, hselfC, hcntC, hfindC⟩ := copyCtor_spec hwf t
  refine ⟨hordC, hcntC, hselfC, hfindC, hwfC, ?_⟩
  intro hneq
  rw [assign, if_neg hneq]
  obtain ⟨-, hordC2, -, hcntC2, hfindC2⟩ := copyCtor_spec hwf x.self
  refine ⟨hordC2, rfl, hcntC2, ?_⟩
  intro k
  have hsame : findNode h { copyCtor h m x.self with self := x.self } k =
      findNode h (copyCtor h m x.self) k := rfl
  rw [hsame, hfindC2]

/-- C10: stepping the past-the-end iterator (either direction, either
variant, prefix or postfix) is a checked no-op that leaves it
past-the-end, and decrementing an iterator referencing the first entry
of the order list yields the past-the-end iterator; every step operation
is a total function of the iterator and the list, so no step faults. -/
theorem c10_iterator_steps {m : LHM} {it : Iter} {cit : CIter} {k : Nat}
    {rest : List Nat} (hit : it.current = none) (hcit : cit.current = none)
    (hord : m.order = k :: rest) :
    Iter.incPre m it = it ∧ Iter.decPre m it = it ∧
    Iter.incPost m it = (it, it) ∧ Iter.decPost m it = (it, it) ∧
    CIter.incPre m cit = cit ∧ CIter.decPre m cit = cit ∧
    CIter.incPost m cit = (cit, cit) ∧ CIter.decPost m cit = (cit, cit) ∧
    (∀ t, Iter.decPre m ⟨some k, t⟩ = ⟨none, t⟩) ∧
    (∀ t, CIter.decPre m ⟨some k, t⟩ = ⟨none, t⟩) ∧
    (∀ t, Iter.decPost m ⟨some k, t⟩ = (⟨some k, t⟩, ⟨none, t⟩)) ∧
    (∀ t, CIter.decPost m ⟨some k, t⟩ = (⟨some k, t⟩, ⟨none, t⟩)) := by
  have hi1 : Iter.incPre m it = it := by rw [Iter.incPre, hit]
  have hi2 : Iter.decPre m it = it := by rw [Iter.decPre, hit]
  have hc1 : CIter.incPre m cit = cit := by rw [CIter.incPre, hcit]
  have hc2 : CIter.decPre m cit = cit := by rw [CIter.decPre, hcit]
  have hfirst : ∀ t, Iter.decPre m ⟨some k, t⟩ = ⟨none, t⟩ := by
    intro t
    rw [Iter.decPre]
    show (⟨listPrev m.order k, t⟩ : Iter) = ⟨none, t⟩
    rw [hord, listPrev, listPrevAux, if_pos rfl]
  have hcfirst : ∀ t, CIter.decPre m ⟨some k, t⟩ = ⟨none, t⟩ := by
    intro t
    rw [CIter.decPre]
    show (⟨listPrev m.order k, t⟩ : CIter) = ⟨none, t⟩
    rw [hord, listPrev, listPrevAux, if_pos rfl]
  refine ⟨hi1, hi2, ?_, ?_, hc1, hc2, ?_, ?_, hfirst, hcfirst, ?_, ?_⟩
  · rw [Iter.incPost, hi1]
  · rw [Iter.decPost, hi2]
  · rw [CIter.incPost, hc1]
  · rw [CIter.decPost, hc2]
  · intro t
    rw [Iter.decPost, hfirst t]
  · intro t
    rw [CIter.decPost, hcfirst t]

/-! Concrete instances used by the witnesses. -/

/-- Identity hash, a legitimate instantiation of the `Hash` functor. -/
def hashId : Nat → Nat := fun k => k

/-- A concrete map holding `1 ↦ 10, 2 ↦ 20, 3 ↦ 30` in that insertion
order. -/
def sampleMap : LHM :=
  (insert hashId ((insert hashId ((insert hashId (emptyMap 0) (1, 10)).2)
    (2, 20)).2) (3, 30)).2

/-- A concrete map filled exactly to the load-factor threshold:
12 entries over capacity 16. -/
def fullMap : LHM :=
  (List.range 12).foldl (fun acc i => (insert hashId acc (i, i)).2)
    (emptyMap 0)

/-- Witness for C1: re-inserting key 2 into the three-entry map. -/
theorem c1_witness :
    WF hashId sampleMap ∧ 2 ∈ sampleMap.order ∧
    ((insert hashId sampleMap (2, 99)).1 = (⟨some 2, sampleMap.self⟩, false) ∧
     (insert hashId sampleMap (2, 99)).2.order = sampleMap.order ∧
     (insert hashId sampleMap (2, 99)).2.element_count =
       sampleMap.element_count ∧
     findNode hashId (insert hashId sampleMap (2, 99)).2 2 =
       findNode hashId sampleMap 2) :=
  ⟨by decide, by decide, c1_insert_existing_key (by decide) (by decide)⟩

/-- Witness for C2: inserting into the (reachable) empty map. -/
theorem c2_witness :
    Reachable hashId (emptyMap 0) ∧
    (4 * (insert hashId (emptyMap 0) (5, 7)).2.element_count ≤
       3 * (insert hashId (emptyMap 0) (5, 7)).2.bucket_count ∧
     (insert hashId (emptyMap 0) (5, 7)).2.bucket_count =
       (ensure_capacity hashId (emptyMap 0)).bucket_count) :=
  ⟨Reachable.empty 0,
    c2_load_factor_after_insert (Reachable.empty 0) (5, 7)⟩

/-- Witness for C3: keys 0, 1, 2 with the identity hash. -/
theorem c3_witness :
    (0 : Nat) ≠ 1 ∧ (0 : Nat) ≠ 2 ∧ (1 : Nat) ≠ 2 ∧
    ((insert hashId (insert hashId (insert hashId (emptyMap 0) (0, 5)).2
        (1, 6)).2 (2, 7)).2.order = [0, 1, 2] ∧
     ∃ m4,
       erase hashId
         (insert hashId (insert hashId (insert hashId (emptyMap 0)
           (0, 5)).2 (1, 6)).2 (2, 7)).2
         (find hashId
           (insert hashId (insert hashId (insert hashId (emptyMap 0)
             (0, 5)).2 (1, 6)).2 (2, 7)).2 1) = .ok m4 ∧
       m4.order = [0, 2] ∧
       (insert hashId m4 (1, 8)).2.order = [0, 2, 1]) :=
  ⟨by decide, by decide, by decide,
    c3_iteration_order hashId 0 0 1 2 5 6 7 8 (by decide) (by decide)
      (by decide)⟩

/-- Witness for C4: rehashing the three-entry map to capacity 32. -/
theorem c4_witness :
    WF hashId sampleMap ∧ 0 < 32 ∧
    ((rehash hashId sampleMap 32).order = sampleMap.order ∧
     (rehash hashId sampleMap 32).element_count = sampleMap.element_count ∧
     (rehash hashId sampleMap 32).bucket_count = 32 ∧
     WF hashId (rehash hashId sampleMap 32) ∧
     (∀ k, findNode hashId (rehash hashId sampleMap 32) k =
       findNode hashId sampleMap k) ∧
     ∀ k ∈ sampleMap.order,
       (find hashId (rehash hashId sampleMap 32) k).current = some k) :=
  ⟨by decide, by decide,
    c4_rehash_preserves_contents (by decide) (by decide)⟩

/-- Witness for C5: a live iterator to key 2 of the three-entry map. -/
theorem c5_witness :
    WF hashId sampleMap ∧
    ((⟨some 2, 0⟩ : Iter).current = none ∨
     (⟨some 2, 0⟩ : Iter).container ≠ sampleMap.self ∨
     ∃ k, (⟨some 2, 0⟩ : Iter).current = some k ∧ k ∈ sampleMap.order) ∧
    ((erase hashId sampleMap ⟨some 2, 0⟩ = .error .invalid_iterator ↔
       ((⟨some 2, 0⟩ : Iter).current = none ∨
        (⟨some 2, 0⟩ : Iter).container ≠ sampleMap.self)) ∧
     ∀ k, (⟨some 2, 0⟩ : Iter).current = some k →
       (⟨some 2, 0⟩ : Iter).container = sampleMap.self → k ∈ sampleMap.order →
       ∃ m', erase hashId sampleMap ⟨some 2, 0⟩ = .ok m' ∧
         m'.element_count = sampleMap.element_count - 1 ∧
         m'.order = sampleMap.order.erase k ∧
         k ∉ m'.buckets.flatten.map Prod.fst ∧
         find hashId m' k = endIter m' ∧
         m'.self = sampleMap.self) :=
  ⟨by decide, Or.inr (Or.inr ⟨2, rfl, by decide⟩),
    c5_erase_validation (by decide) (Or.inr (Or.inr ⟨2, rfl, by decide⟩))⟩

/-- Witness for C6: key 3 (present) of the three-entry map; the absent
branch is covered by the implication at that key. -/
theorem c6_witness :
    WF hashId sampleMap ∧
    ((3 ∈ sampleMap.order → ∃ v, findNode hashId sampleMap 3 = some (3, v) ∧
       atKey hashId sampleMap 3 = .ok v) ∧
     (3 ∉ sampleMap.order →
       atKey hashId sampleMap 3 = .error .index_out_of_bound) ∧
     indexAccessConst hashId sampleMap 3 = atKey hashId sampleMap 3) :=
  ⟨by decide, c6_at_access (by decide)⟩

/-- Witness for C7: key 5 (absent) of the three-entry map. -/
theorem c7_witness :
    WF hashId sampleMap ∧
    ((5 ∈ sampleMap.order → ∃ v, findNode hashId sampleMap 5 = some (5, v) ∧
       indexAccess hashId sampleMap 5 = (v, sampleMap)) ∧
     (5 ∉ sampleMap.order →
       (indexAccess hashId sampleMap 5).1 = 0 ∧
       (indexAccess hashId sampleMap 5).2.order = sampleMap.order ++ [5] ∧
       (indexAccess hashId sampleMap 5).2.element_count =
         sampleMap.element_count + 1 ∧
       findNode hashId (indexAccess hashId sampleMap 5).2 5 = some (5, 0))) :=
  ⟨by decide, c7_mutable_index_access (by decide)⟩

/-- Witness for C8: duplicate insert of key 11 into the map at the
load-factor threshold (12 of 16). -/
theorem c8_witness :
    WF hashId fullMap ∧ 11 ∈ fullMap.order ∧
    4 * fullMap.element_count ≥ 3 * fullMap.bucket_count ∧
    ((insert hashId fullMap (11, 99)).2.bucket_count =
       fullMap.bucket_count * 2 ∧
     (insert hashId fullMap (11, 99)).1.2 = false ∧
     (insert hashId fullMap (11, 99)).2.element_count =
       fullMap.element_count ∧
     (insert hashId fullMap (11, 99)).2.order = fullMap.order) :=
  ⟨by decide, by decide, by decide,
    c8_duplicate_insert_still_rehashes (by decide) (by decide) (by decide)⟩

/-- Witness for C9: copying the three-entry map, and assigning it into a
distinct empty container. -/
theorem c9_witness :
    WF hashId sampleMap ∧
    ((copyCtor hashId sampleMap 7).order = sampleMap.order ∧
     (copyCtor hashId sampleMap 7).element_count = sampleMap.element_count ∧
     (copyCtor hashId sampleMap 7).self = 7 ∧
     (∀ k, findNode hashId (copyCtor hashId sampleMap 7) k =
       findNode hashId sampleMap k) ∧
     WF hashId (copyCtor hashId sampleMap 7) ∧
     ((emptyMap 5).self ≠ sampleMap.self →
       (assign hashId (emptyMap 5) sampleMap).order = sampleMap.order ∧
       (assign hashId (emptyMap 5) sampleMap).self = (emptyMap 5).self ∧
       (assign hashId (emptyMap 5) sampleMap).element_count =
         sampleMap.element_count ∧
       ∀ k, findNode hashId (assign hashId (emptyMap 5) sampleMap) k =
         findNode hashId sampleMap k)) :=
  ⟨by decide, c9_copy_independence (by decide)⟩

/-- Witness for C10: the past-the-end iterators of the three-entry map
and its first entry (key 1). -/
theorem c10_witness :
    (⟨none, 0⟩ : Iter).current = none ∧
    (⟨none, 0⟩ : CIter).current = none ∧
    sampleMap.order = 1 :: [2, 3] ∧
    (Iter.incPre sampleMap ⟨none, 0⟩ = ⟨none, 0⟩ ∧
     Iter.decPre sampleMap ⟨none, 0⟩ = ⟨none, 0⟩ ∧
     Iter.incPost sampleMap ⟨none, 0⟩ = (⟨none, 0⟩, ⟨none, 0⟩) ∧
     Iter.decPost sampleMap ⟨none, 0⟩ = (⟨none, 0⟩, ⟨none, 0⟩) ∧
     CIter.incPre sampleMap ⟨none, 0⟩ = ⟨none, 0⟩ ∧
     CIter.decPre sampleMap ⟨none, 0⟩ = ⟨none, 0⟩ ∧
     CIter.incPost sampleMap ⟨none, 0⟩ = (⟨none, 0⟩, ⟨none, 0⟩) ∧
     CIter.decPost sampleMap ⟨none, 0⟩ = (⟨none, 0⟩, ⟨none, 0⟩) ∧
     (∀ t, Iter.decPre sampleMap ⟨some 1, t⟩ = ⟨none, t⟩) ∧
     (∀ t, CIter.decPre sampleMap ⟨some 1, t⟩ = ⟨none, t⟩) ∧
     (∀ t, Iter.decPost sampleMap ⟨some 1, t⟩ = (⟨some 1, t⟩, ⟨none, t⟩)) ∧
     (∀ t, CIter.decPost sampleMap ⟨some 1, t⟩ = (⟨some 1, t⟩, ⟨none, t⟩))) :=
  ⟨rfl, rfl, by decide,
    @c10_iterator_steps sampleMap ⟨none, 0⟩ ⟨none, 0⟩ 1 [2, 3] rfl rfl
      (by decide)⟩

end LinkedHashmap
